import Mathlib

/-!
Verification of the binpat declarative binary-pattern decoder.

The definitions below are a shallow embedding of the TypeScript source
(`src/binpat.ts`, reproduced in `src/README.md`): byte buffers are
`List Nat` (each entry one byte of a `Uint8Array`), JavaScript numbers used
as byte offsets are `Int` (a `seek`/`skip` may produce any value), and the
mutable `BinpatContext` object is threaded functionally.  A decoded
JavaScript value is represented by `Value`; a text value is represented by
the raw bytes it was sliced from together with the requested encoding
(`TextDecoder` is an external collaborator: its output is a pure function
of those two data), and a floating-point value is represented by its
width and raw bit pattern (`DataView.getFloatN` is a pure function of the
bit pattern).  `DataView` getters throw a `RangeError` on out-of-range
access; that is the only error channel of the source, modelled by
`Option`.
-/

namespace Binpat

/-- Byte order, `'big' | 'little'` in the source. -/
inductive Endian where
  | big
  | little
deriving DecidableEq, BEq

/-- Bit numbering of a bitfield, `'MSb' | 'LSb'` in the source. -/
inductive First where
  | MSb
  | LSb
deriving DecidableEq, BEq

/-- A decoded JavaScript value.

* `vStr bytes enc` stands for `new TextDecoder(enc).decode(bytes)`;
* `vFloat w bits` stands for the IEEE-754 value of width `w` bits whose
  raw (big-endian) bit pattern is `bits`;
* `vNaN` is the JavaScript `NaN` produced by `Number.parseInt` on an
  empty digit string inside the bitfield decoder;
* `vUndef` is JavaScript `undefined` (the return value of `seek`/`skip`
  handlers and of a `ternary` whose taken branch is absent). -/
inductive Value where
  | vNat (n : Nat)
  | vInt (i : Int)
  | vFloat (width : Nat) (bits : Nat)
  | vBool (b : Bool)
  | vStr (bytes : List Nat) (encoding : String)
  | vArr (elems : List Value)
  | vObj (fields : List (String × Value))
  | vNaN
  | vUndef

/-- The mutable parsing context `BinpatContext` of the source:
`{ endian, offset, data, parent }`.  `parent` is the enclosing Structure
context; the snapshot taken at child creation is accurate for the whole
child activation because the parent's field loop is suspended meanwhile. -/
inductive Ctx where
  | mk (endian : Endian) (offset : Int) (data : List (String × Value))
      (parent : Option Ctx)

def Ctx.endian : Ctx → Endian
  | .mk e _ _ _ => e

def Ctx.offset : Ctx → Int
  | .mk _ o _ _ => o

def Ctx.data : Ctx → List (String × Value)
  | .mk _ _ d _ => d

def Ctx.parent : Ctx → Option Ctx
  | .mk _ _ _ p => p

def Ctx.setOffset : Ctx → Int → Ctx
  | .mk e _ d p, o => .mk e o d p

def Ctx.setData : Ctx → List (String × Value) → Ctx
  | .mk e o _ p, d => .mk e o d p

/-- `{ ...parent, parent, data: {} }`: the child context allocated per
Structure activation. -/
def Ctx.child (c : Ctx) : Ctx :=
  .mk c.endian c.offset [] (some c)

/-! ### JavaScript object and buffer helpers -/

/-- `key.startsWith('...')` of the source, on the character sequence. -/
def keyIsSpread (k : String) : Bool :=
  List.isPrefixOf "...".toList k.toList

/-- `key.startsWith('//')` of the source, on the character sequence. -/
def keyIsOmit (k : String) : Bool :=
  List.isPrefixOf "//".toList k.toList

/-- JavaScript property assignment `obj[k] = v` on an insertion-ordered
object: an existing key keeps its position and gets the new value, a new
key is appended. -/
def jsAssign (d : List (String × Value)) (k : String) (v : Value) :
    List (String × Value) :=
  if k ∈ d.map Prod.fst then
    d.map (fun kv => if kv.1 = k then (k, v) else kv)
  else d ++ [(k, v)]

/-- JavaScript object spread `{ ...d, ...es }`: the entries of `es` are
assigned into `d` one by one, in order. -/
def jsSpreadMerge (d : List (String × Value)) (es : List (String × Value)) :
    List (String × Value) :=
  es.foldl (fun acc kv => jsAssign acc kv.1 kv.2) d

/-- The own enumerable entries contributed by `{ ...v }` for a decoded
value `v`: a mapping contributes its entries, a sequence or a text value
contributes index-keyed entries, and any primitive value contributes
nothing.  (A spread text value is modelled at byte granularity.) -/
def spreadEntries : Value → List (String × Value)
  | .vObj fs => fs
  | .vArr xs => (List.range xs.length).zip xs |>.map fun p => (toString p.1, p.2)
  | .vStr bytes enc =>
      (List.range bytes.length).zip bytes |>.map
        fun p => (toString p.1, Value.vStr [p.2] enc)
  | _ => []

/-- Property lookup `d[k]` (layout keys are unique in the source, so the
first match is the only match). -/
def jsLookup (d : List (String × Value)) (k : String) : Option Value :=
  (d.find? fun kv => kv.1 == k).map Prod.snd

/-- An index of `ArrayBuffer.prototype.slice`: negative values count from
the end, and everything is clamped to `[0, len]`. -/
def jsSliceIdx (len : Nat) (x : Int) : Nat :=
  if x < 0 then ((len : Int) + x).toNat else min x.toNat len

/-- `buffer.slice(a, b)` of JavaScript: a clamped, never-failing slice. -/
def jsSlice (l : List Nat) (a b : Int) : List Nat :=
  (l.drop (jsSliceIdx l.length a)).take (jsSliceIdx l.length b - jsSliceIdx l.length a)

/-- The checked read of a `DataView` getter: `w` bytes at offset `o`, or a
`RangeError` when the span is not fully inside the buffer. -/
def readBytes (dv : List Nat) (o : Int) (w : Nat) : Option (List Nat) :=
  if 0 ≤ o ∧ o.toNat + w ≤ dv.length then some ((dv.drop o.toNat).take w) else none

/-! ### Fixed-width primitive decoders (`createTypedHandler`) -/

/-- The eleven typed handlers `u8 … f64` produced by `createTypedHandler`. -/
inductive PrimKind where
  | u8 | u16 | u32 | u64
  | i8 | i16 | i32 | i64
  | f16 | f32 | f64
deriving DecidableEq, BEq

/-- `constructor.BYTES_PER_ELEMENT` of the matching typed array. -/
def primWidth : PrimKind → Nat
  | .u8 => 1 | .u16 => 2 | .u32 => 4 | .u64 => 8
  | .i8 => 1 | .i16 => 2 | .i32 => 4 | .i64 => 8
  | .f16 => 2 | .f32 => 4 | .f64 => 8

/-- Big-endian assembly of a byte list into an unsigned integer. -/
def assembleBE (bytes : List Nat) : Nat :=
  bytes.foldl (fun acc b => acc * 256 + b) 0

/-- The raw unsigned integer read by a sized `DataView` getter: the bytes
in buffer order, reversed first when reading little-endian. -/
def rawRead (le : Bool) (bytes : List Nat) : Nat :=
  assembleBE (if le then bytes.reverse else bytes)

/-- The value returned by the `DataView` getter named by `k` from the raw
bytes: unsigned getters return the assembled integer, signed getters its
two's-complement reading, float getters the IEEE-754 value of the
assembled bit pattern (represented by that pattern, see `Value.vFloat`). -/
def primValue (k : PrimKind) (le : Bool) (bytes : List Nat) : Value :=
  let raw := rawRead le bytes
  match k with
  | .u8 | .u16 | .u32 | .u64 => .vNat raw
  | .i8 | .i16 | .i32 | .i64 =>
      let bits := 8 * primWidth k
      .vInt (if raw < 2 ^ (bits - 1) then (raw : Int) else (raw : Int) - 2 ^ bits)
  | .f16 | .f32 | .f64 => .vFloat (8 * primWidth k) (rawRead le bytes)

/-! ### Bitfield decoder -/

/-- The kind of one bitfield entry: `bitfield.u`, `bitfield.i`,
`bitfield.bool`. -/
inductive BitKind where
  | u
  | i
  | bool
deriving DecidableEq, BEq

/-- A normalized bitfield layout entry `{ type, size }`; a bare number `n`
in a source layout stands for `{ type: 'u', size: n }` and
`bitfield.bool()` for `{ type: 'bool', size: 1 }`. -/
structure BitDef where
  kind : BitKind
  size : Nat
deriving DecidableEq, BEq

/-- `byte.toString(2).padStart(8, '0')`: the eight bits of a byte, most
significant first. -/
def byteBits (b : Nat) : List Bool :=
  (List.range 8).map fun i => b / 2 ^ (7 - i) % 2 == 1

/-- The value of a binary digit string, most significant bit first. -/
def bitsVal (bs : List Bool) : Nat :=
  bs.foldl (fun acc b => acc * 2 + (if b then 1 else 0)) 0

/-- `Number.parseInt(s, 2)`: `NaN` (here `none`) on the empty string,
otherwise the binary value of the digits present. -/
def parseBits : List Bool → Option Nat
  | [] => none
  | bs => some (bitsVal bs)

/-- The typed value of one bitfield entry from its parsed raw value:
signed entries get a two's-complement correction (`NaN` propagates, since
`NaN < x` is false and `NaN - c` is `NaN`), boolean entries `!!v`
(`!!NaN` is `false`). -/
def bitTypedValue (d : BitDef) : Option Nat → Value
  | none =>
      match d.kind with
      | .bool => .vBool false
      | _ => .vNaN
  | some v =>
      match d.kind with
      | .u => .vNat v
      | .i => if v < 2 ^ (d.size - 1) then .vInt v else .vInt ((v : Int) - 2 ^ d.size)
      | .bool => .vBool (v != 0)

/-- The slicing walk over the bit content: each entry consumes its
declared number of bits; entries whose key starts with `//` are consumed
but dropped. -/
def bitfieldConsume : List (String × BitDef) → List Bool → List (String × Value)
  | [], _ => []
  | (k, d) :: rest, content =>
      let v := parseBits (content.take d.size)
      if keyIsOmit k then bitfieldConsume rest (content.drop d.size)
      else (k, bitTypedValue d v) :: bitfieldConsume rest (content.drop d.size)

/-- The `bitfield(field, option)` handler.  It never fails: the byte span
is obtained with the clamping `buffer.slice`, and the offset advances by
the full computed byte size regardless.  The end-padding entry appended by
the source carries a fresh `omit()` key; only its `//` head matters, so it
is written `"//endpad"` here. -/
def bitfieldHandler (layout : List (String × BitDef)) (optEndian : Option Endian)
    (optFirst : Option First) (dv : List Nat) (ctx : Ctx) : Value × Ctx :=
  let endian := optEndian.getD ctx.endian
  let first := optFirst.getD (if endian == Endian.big then First.MSb else First.LSb)
  let bitSize := (layout.map fun kv => kv.2.size).sum
  let byteSize := (bitSize + 7) / 8
  let endPadding := byteSize * 8 - bitSize
  let kvs1 := if endPadding != 0 then
      layout ++ [("//endpad", BitDef.mk BitKind.u endPadding)]
    else layout
  let kvs := if first == First.LSb then kvs1.reverse else kvs1
  let bytes0 := jsSlice dv ctx.offset (ctx.offset + byteSize)
  let bytes := if endian == Endian.little then bytes0.reverse else bytes0
  let content := (bytes.map byteBits).flatten
  let parsed := bitfieldConsume kvs content
  let value := Value.vObj ((layout.filter fun kv => !keyIsOmit kv.1).map
      fun kv => (kv.1, (jsLookup parsed kv.1).getD Value.vUndef))
  (value, ctx.setOffset (ctx.offset + byteSize))

/-! ### Patterns and the interpreter `exec` -/

/-- A literal-or-function size argument (`number | ((ctx) => number)`),
used by `string` and `array`; the source uses it as an element or byte
count. -/
inductive SizeArg where
  | const (n : Nat)
  | ofCtx (f : Ctx → Nat)

def evalSize : SizeArg → Ctx → Nat
  | .const n, _ => n
  | .ofCtx f, ctx => f ctx

/-- A literal-or-function offset argument (`number | ((ctx) => number)`),
used by `seek` and `peek`. -/
inductive OffArg where
  | const (n : Int)
  | ofCtx (f : Ctx → Int)

def evalOff : OffArg → Ctx → Int
  | .const n, _ => n
  | .ofCtx f, ctx => f ctx

mutual

/-- The pattern language: one constructor per handler constructor of the
source plus the three plain shapes the interpreter recognizes (a native
array, a native object, a literal).  A Structure's field list is kept in
`Object.entries` order. -/
inductive Pattern where
  | prim (k : PrimKind) (littleEndian : Option Bool)
  | bool
  | string (size : SizeArg) (encoding : String)
  | array (pattern : Pattern) (size : SizeArg)
  | bitfield (layout : List (String × BitDef)) (optEndian : Option Endian)
      (optFirst : Option First)
  | ternary (condition : Ctx → Bool) (truthy : Pattern) (falsy : OptPattern)
  | convert (pattern : Pattern) (fn : Value → Ctx → Value)
  | seek (offset : OffArg)
  | skip (offset : Int)
  | peek (offset : OffArg) (pattern : Pattern)
  | seq (elems : PatList)
  | obj (fields : Fields)
  | lit (v : Value)

/-- The optional `falsy` argument of `ternary`. -/
inductive OptPattern where
  | none
  | some (p : Pattern)

/-- The entries of a native-object pattern, in `Object.entries` order. -/
inductive Fields where
  | nil
  | cons (key : String) (pattern : Pattern) (rest : Fields)

/-- The elements of a native-array pattern. -/
inductive PatList where
  | nil
  | cons (p : Pattern) (rest : PatList)

end

/-- One step of the Structure field loop after the sub-pattern produced
`v`: a `...` key spreads `v` into `data`, a `//` key discards `v`, any
other key is assigned. -/
def applyField (k : String) (v : Value) (c : Ctx) : Ctx :=
  if keyIsSpread k then c.setData (jsSpreadMerge c.data (spreadEntries v))
  else if keyIsOmit k then c
  else c.setData (jsAssign c.data k v)

/-- `n` sequential executions of a step against a threaded context
(`Array.from({ length: n }).map(() => …)`). -/
def iterN (step : Ctx → Option (Value × Ctx)) : Nat → Ctx → Option (List Value × Ctx)
  | 0, ctx => Option.some ([], ctx)
  | n + 1, ctx =>
      match step ctx with
      | Option.none => Option.none
      | Option.some (v, c) =>
          match iterN step n c with
          | Option.none => Option.none
          | Option.some (vs, c2) => Option.some (v :: vs, c2)

mutual

/-- The interpreter `exec(dv, pattern, parent)` of the source, with the
mutable context threaded explicitly.  `array` is modelled as the plain
sequence of its element values: whether the source packs them into a
`TypedArray` (when the element handler carries `BINPAT_ARRAY`) is a
representation choice that does not affect the decoded numbers. -/
def exec (dv : List Nat) : Pattern → Ctx → Option (Value × Ctx)
  | .prim k ov => fun ctx =>
      match readBytes dv ctx.offset (primWidth k) with
      | Option.none => Option.none
      | Option.some bytes =>
          let le := ov.getD (ctx.endian == Endian.little)
          Option.some (primValue k le bytes, ctx.setOffset (ctx.offset + primWidth k))
  | .bool => fun ctx =>
      match readBytes dv ctx.offset 1 with
      | Option.none => Option.none
      | Option.some bytes =>
          Option.some (.vBool (assembleBE bytes != 0), ctx.setOffset (ctx.offset + 1))
  | .string sz enc => fun ctx =>
      let len := evalSize sz ctx
      Option.some (.vStr (jsSlice dv ctx.offset (ctx.offset + len)) enc,
        ctx.setOffset (ctx.offset + len))
  | .array p sz => fun ctx =>
      match iterN (exec dv p) (evalSize sz ctx) ctx with
      | Option.none => Option.none
      | Option.some (vs, c) => Option.some (.vArr vs, c)
  | .bitfield layout oe f => fun ctx =>
      Option.some (bitfieldHandler layout oe f dv ctx)
  | .ternary cond t f => fun ctx =>
      if cond ctx then exec dv t ctx
      else
        match f with
        | .none => Option.some (.vUndef, ctx)
        | .some p => exec dv p ctx
  | .convert p fn => fun ctx =>
      match exec dv p ctx with
      | Option.none => Option.none
      | Option.some (v, c) => Option.some (fn v c, c)
  | .seek tgt => fun ctx =>
      Option.some (.vUndef, ctx.setOffset (evalOff tgt ctx))
  | .skip d => fun ctx =>
      Option.some (.vUndef, ctx.setOffset (ctx.offset + d))
  | .peek tgt p => fun ctx =>
      match exec dv p (ctx.setOffset (evalOff tgt ctx)) with
      | Option.none => Option.none
      | Option.some (v, c) => Option.some (v, c.setOffset ctx.offset)
  | .seq ps => fun ctx =>
      match execSeq dv ps ctx with
      | Option.none => Option.none
      | Option.some (vs, c) => Option.some (.vArr vs, c)
  | .obj fs => fun ctx =>
      match execFields dv fs ctx.child with
      | Option.none => Option.none
      | Option.some final => Option.some (.vObj final.data, ctx.setOffset final.offset)
  | .lit v => fun ctx => Option.some (v, ctx)

/-- `pattern.map((pat) => exec(dv, pat, parent))`: the elements of a
native-array pattern run against the same context, in order. -/
def execSeq (dv : List Nat) : PatList → Ctx → Option (List Value × Ctx)
  | .nil => fun ctx => Option.some ([], ctx)
  | .cons p rest => fun ctx =>
      match exec dv p ctx with
      | Option.none => Option.none
      | Option.some (v, c) =>
          match execSeq dv rest c with
          | Option.none => Option.none
          | Option.some (vs, c2) => Option.some (v :: vs, c2)

/-- The `Object.entries(pattern).forEach` loop of the Structure case,
acting on the Structure's own child context. -/
def execFields (dv : List Nat) : Fields → Ctx → Option Ctx
  | .nil => fun ctx => Option.some ctx
  | .cons k q rest => fun ctx =>
      match exec dv q ctx with
      | Option.none => Option.none
      | Option.some (v, c) => execFields dv rest (applyField k v c)

end

/-- The entry point `new Binpat(pattern, option).exec(buffer)`: a fresh
root context, offset `0`, empty data, no parent. -/
def rootCtx (endian : Endian) : Ctx :=
  Ctx.mk endian 0 [] Option.none

def binpatExec (p : Pattern) (endian : Endian) (buffer : List Nat) : Option Value :=
  (exec buffer p (rootCtx endian)).map Prod.fst

/-- `omit(comment)` returns `'//' + random()`; the random hexadecimal
suffix is a parameter here. -/
def omitKey (r : String) : String := "//" ++ r

/-- `spread(comment)` returns `'...' + random()`; the random hexadecimal
suffix is a parameter here. -/
def spreadKey (r : String) : String := "..." ++ r

/-- `ctx.data.k` coerced to a count, as the dynamic-size arrow functions
of the examples read it (the decoded field is an unsigned integer). -/
def ctxDataNat (ctx : Ctx) (k : String) : Nat :=
  match jsLookup ctx.data k with
  | Option.some (.vNat n) => n
  | _ => 0

/-! ### Offset monotonicity for patterns without explicit offset control -/

mutual

/-- No `seek` and no backwards `skip` anywhere outside a `peek`: the class
of patterns whose every activation moves the offset forwards.  A `peek`
body is exempt because its activation restores the saved offset. -/
def monoFree : Pattern → Bool
  | .prim _ _ => true
  | .bool => true
  | .string _ _ => true
  | .array p _ => monoFree p
  | .bitfield _ _ _ => true
  | .ternary _ t f => monoFree t && monoFreeOpt f
  | .convert p _ => monoFree p
  | .seek _ => false
  | .skip d => decide (0 ≤ d)
  | .peek _ _ => true
  | .seq ps => monoFreeSeq ps
  | .obj fs => monoFreeFields fs
  | .lit _ => true

def monoFreeOpt : OptPattern → Bool
  | .none => true
  | .some p => monoFree p

def monoFreeFields : Fields → Bool
  | .nil => true
  | .cons _ q rest => monoFree q && monoFreeFields rest

def monoFreeSeq : PatList → Bool
  | .nil => true
  | .cons p rest => monoFree p && monoFreeSeq rest

end

/-! ### Declaration-order characterisation of the Structure result -/

/-- What one field contributes to the enclosing result mapping, per the
specified result-shape rules: a spread key contributes its sub-result's
entries in their own order, an omit key contributes nothing, a named key
contributes itself. -/
def contribution (k : String) (v : Value) : List (String × Value) :=
  if keyIsSpread k then spreadEntries v
  else if keyIsOmit k then []
  else [(k, v)]

/-- Modelled on the claim's words (the declarative reading of the field
loop): every field's sub-pattern is executed in declaration order against
the threaded context, and the result mapping is the concatenation of the
per-field contributions, spread entries standing in place of their marker.
To be compared with the source-derived `execFields`. -/
def execFieldsSpec (dv : List Nat) : Fields → Ctx → Option Ctx
  | .nil => fun ctx => Option.some ctx
  | .cons k q rest => fun ctx =>
      match exec dv q ctx with
      | Option.none => Option.none
      | Option.some (v, c) =>
          execFieldsSpec dv rest (c.setData (c.data ++ contribution k v))

/-- The parts of a context that an `exec` call never touches. -/
def SameScope (ctx c : Ctx) : Prop :=
  c.endian = ctx.endian ∧ c.data = ctx.data ∧ c.parent = ctx.parent

/-! ### Concrete patterns used in the worked scenarios -/

/-- `{ count: u8(), items: array(u8(), (ctx) => ctx.data.count) }`. -/
def countItemsPattern : Pattern :=
  .obj (.cons "count" (.prim .u8 Option.none)
    (.cons "items" (.array (.prim .u8 Option.none)
      (.ofCtx fun ctx => ctxDataNat ctx "count")) .nil))

/-- `{ a: u8(), [omit()]: seek(0), b: u8() }`: a pattern whose `seek`
moves the offset backwards. -/
def backSeekPattern : Pattern :=
  .obj (.cons "a" (.prim .u8 Option.none)
    (.cons "//s" (.seek (.const 0))
      (.cons "b" (.prim .u8 Option.none) .nil)))

/-- A Structure exercising all three field kinds:
`{ a: u8(), [omit()]: u8(), [spread()]: { b: u8(), c: u8() }, d: u8() }`. -/
def mixedFields : Fields :=
  .cons "a" (.prim .u8 Option.none)
    (.cons "//x" (.prim .u8 Option.none)
      (.cons "...s" (.obj (.cons "b" (.prim .u8 Option.none)
          (.cons "c" (.prim .u8 Option.none) .nil)))
        (.cons "d" (.prim .u8 Option.none) .nil)))

/-! ## Theorems -/

@[simp] theorem Ctx.endian_setOffset (c : Ctx) (o : Int) :
    (c.setOffset o).endian = c.endian := by
  cases c; rfl

@[simp] theorem Ctx.data_setOffset (c : Ctx) (o : Int) :
    (c.setOffset o).data = c.data := by
  cases c; rfl

@[simp] theorem Ctx.parent_setOffset (c : Ctx) (o : Int) :
    (c.setOffset o).parent = c.parent := by
  cases c; rfl

@[simp] theorem Ctx.offset_setOffset (c : Ctx) (o : Int) :
    (c.setOffset o).offset = o := by
  cases c; rfl

@[simp] theorem Ctx.endian_setData (c : Ctx) (d : List (String × Value)) :
    (c.setData d).endian = c.endian := by
  cases c; rfl

@[simp] theorem Ctx.offset_setData (c : Ctx) (d : List (String × Value)) :
    (c.setData d).offset = c.offset := by
  cases c; rfl

@[simp] theorem Ctx.parent_setData (c : Ctx) (d : List (String × Value)) :
    (c.setData d).parent = c.parent := by
  cases c; rfl

@[simp] theorem Ctx.data_setData (c : Ctx) (d : List (String × Value)) :
    (c.setData d).data = d := by
  cases c; rfl

theorem Ctx.ext (a b : Ctx) (he : a.endian = b.endian) (ho : a.offset = b.offset)
    (hd : a.data = b.data) (hp : a.parent = b.parent) : a = b := by
  cases a
  cases b
  simp only [Ctx.endian, Ctx.offset, Ctx.data, Ctx.parent] at he ho hd hp
  subst he ho hd hp
  rfl

@[simp] theorem Ctx.setOffset_offset_self (c : Ctx) : c.setOffset c.offset = c := by
  cases c; rfl

@[simp] theorem Ctx.setOffset_setOffset (c : Ctx) (a b : Int) :
    (c.setOffset a).setOffset b = c.setOffset b := by
  cases c; rfl

@[simp] theorem Ctx.setData_data_self (c : Ctx) : c.setData c.data = c := by
  cases c; rfl

/-! ### Frame lemmas: `exec` only moves the offset of the context it is
handed; `data` is only ever written into a Structure's own child. -/

theorem SameScope.refl (ctx : Ctx) : SameScope ctx ctx :=
  ⟨rfl, rfl, rfl⟩

theorem SameScope.trans {a b c : Ctx} (h1 : SameScope a b) (h2 : SameScope b c) :
    SameScope a c :=
  ⟨h2.1.trans h1.1, h2.2.1.trans h1.2.1, h2.2.2.trans h1.2.2⟩

theorem SameScope.setOffset (ctx : Ctx) (o : Int) : SameScope ctx (ctx.setOffset o) := by
  refine ⟨?_, ?_, ?_⟩ <;> simp

theorem SameScope.of_setOffset_left {ctx c : Ctx} (o : Int)
    (h : SameScope (ctx.setOffset o) c) : SameScope ctx c := by
  refine ⟨?_, ?_, ?_⟩ <;> simp [h.1, h.2.1, h.2.2]

@[simp] theorem applyField_endian (k : String) (v : Value) (c : Ctx) :
    (applyField k v c).endian = c.endian := by
  unfold applyField
  split
  · simp
  · split
    · rfl
    · simp

@[simp] theorem applyField_parent (k : String) (v : Value) (c : Ctx) :
    (applyField k v c).parent = c.parent := by
  unfold applyField
  split
  · simp
  · split
    · rfl
    · simp

@[simp] theorem applyField_offset (k : String) (v : Value) (c : Ctx) :
    (applyField k v c).offset = c.offset := by
  unfold applyField
  split
  · simp
  · split
    · rfl
    · simp

theorem iterN_frame (step : Ctx → Option (Value × Ctx))
    (hstep : ∀ ctx v c, step ctx = Option.some (v, c) → SameScope ctx c) :
    ∀ n ctx vs c, iterN step n ctx = Option.some (vs, c) → SameScope ctx c := by
  intro n
  induction n with
  | zero =>
      intro ctx vs c h
      simp only [iterN] at h
      cases h
      exact SameScope.refl _
  | succ m ih =>
      intro ctx vs c h
      simp only [iterN] at h
      split at h
      · exact absurd h (by simp)
      · rename_i v c1 heq
        split at h
        · exact absurd h (by simp)
        · rename_i vs2 c2 heq2
          cases h
          exact (hstep _ _ _ heq).trans (ih _ _ _ heq2)

mutual

theorem exec_frame (dv : List Nat) : (p : Pattern) → ∀ ctx v c,
    exec dv p ctx = Option.some (v, c) → SameScope ctx c
  | .prim k ov => by
      intro ctx v c h
      simp only [exec] at h
      split at h
      · exact absurd h (by simp)
      · cases h; exact SameScope.setOffset ..
  | .bool => by
      intro ctx v c h
      simp only [exec] at h
      split at h
      · exact absurd h (by simp)
      · cases h; exact SameScope.setOffset ..
  | .string sz enc => by
      intro ctx v c h
      simp only [exec] at h
      cases h; exact SameScope.setOffset ..
  | .array p sz => by
      intro ctx v c h
      simp only [exec] at h
      split at h
      · exact absurd h (by simp)
      · rename_i vs c2 heq
        cases h
        exact iterN_frame _ (exec_frame dv p) _ _ _ _ heq
  | .bitfield layout oe f => by
      intro ctx v c h
      simp only [exec, bitfieldHandler] at h
      cases h; exact SameScope.setOffset ..
  | .ternary cond t f => by
      intro ctx v c h
      simp only [exec] at h
      split at h
      · exact exec_frame dv t _ _ _ h
      · cases f with
        | none => cases h; exact SameScope.refl _
        | some p => exact exec_frame dv p _ _ _ h
  | .convert p fn => by
      intro ctx v c h
      simp only [exec] at h
      split at h
      · exact absurd h (by simp)
      · rename_i v2 c2 heq
        cases h
        exact exec_frame dv p _ _ _ heq
  | .seek tgt => by
      intro ctx v c h
      simp only [exec] at h
      cases h; exact SameScope.setOffset ..
  | .skip d => by
      intro ctx v c h
      simp only [exec] at h
      cases h; exact SameScope.setOffset ..
  | .peek tgt p => by
      intro ctx v c h
      simp only [exec] at h
      split at h
      · exact absurd h (by simp)
      · rename_i v2 c2 heq
        cases h
        have h2 := (exec_frame dv p _ _ _ heq).of_setOffset_left
        exact h2.trans (SameScope.setOffset ..)
  | .seq ps => by
      intro ctx v c h
      simp only [exec] at h
      split at h
      · exact absurd h (by simp)
      · rename_i vs c2 heq
        cases h
        exact execSeq_frame dv ps _ _ _ heq
  | .obj fs => by
      intro ctx v c h
      simp only [exec] at h
      split at h
      · exact absurd h (by simp)
      · cases h; exact SameScope.setOffset ..
  | .lit v0 => by
      intro ctx v c h
      simp only [exec] at h
      cases h; exact SameScope.refl _

theorem execSeq_frame (dv : List Nat) : (ps : PatList) → ∀ ctx vs c,
    execSeq dv ps ctx = Option.some (vs, c) → SameScope ctx c
  | .nil => by
      intro ctx vs c h
      simp only [execSeq] at h
      cases h; exact SameScope.refl _
  | .cons p rest => by
      intro ctx vs c h
      simp only [execSeq] at h
      split at h
      · exact absurd h (by simp)
      · rename_i v c1 heq
        split at h
        · exact absurd h (by simp)
        · rename_i vs2 c2 heq2
          cases h
          exact (exec_frame dv p _ _ _ heq).trans (execSeq_frame dv rest _ _ _ heq2)

end

/-- A completed `exec` differs from its input context in the offset alone. -/
theorem exec_setOffset_shape (dv : List Nat) (p : Pattern) (ctx : Ctx) {v : Value}
    {c : Ctx} (h : exec dv p ctx = Option.some (v, c)) : c = ctx.setOffset c.offset := by
  have hs := exec_frame dv p _ _ _ h
  exact Ctx.ext _ _ (by simp [hs.1]) (by simp) (by simp [hs.2.1]) (by simp [hs.2.2])

/-- The `peek` equation: the inner pattern runs at the target offset
against the same context, its value is returned, and the caller's context
comes back exactly as it was (the inner Structure's write-back of its
final offset included: it is overwritten by the restore). -/
theorem exec_peek_eq (dv : List Nat) (tgt : OffArg) (p : Pattern) (ctx : Ctx) :
    exec dv (.peek tgt p) ctx
      = (exec dv p (ctx.setOffset (evalOff tgt ctx))).map fun r => (r.1, ctx) := by
  simp only [exec]
  cases h : exec dv p (ctx.setOffset (evalOff tgt ctx)) with
  | none => rfl
  | some r =>
      obtain ⟨v, c⟩ := r
      have hs := (exec_frame dv p _ _ _ h).of_setOffset_left
      have hc : c.setOffset ctx.offset = ctx :=
        Ctx.ext _ _ (by simp [hs.1]) (by simp) (by simp [hs.2.1]) (by simp [hs.2.2])
      simp [hc]

theorem iterN_mono (step : Ctx → Option (Value × Ctx))
    (hstep : ∀ ctx v c, step ctx = Option.some (v, c) → ctx.offset ≤ c.offset) :
    ∀ n ctx vs c, iterN step n ctx = Option.some (vs, c) → ctx.offset ≤ c.offset := by
  intro n
  induction n with
  | zero =>
      intro ctx vs c h
      simp only [iterN] at h
      cases h
      exact le_refl _
  | succ m ih =>
      intro ctx vs c h
      simp only [iterN] at h
      split at h
      · exact absurd h (by simp)
      · rename_i v c1 heq
        split at h
        · exact absurd h (by simp)
        · rename_i vs2 c2 heq2
          cases h
          exact (hstep _ _ _ heq).trans (ih _ _ _ heq2)

mutual

theorem exec_mono (dv : List Nat) : (p : Pattern) → monoFree p = true → ∀ ctx v c,
    exec dv p ctx = Option.some (v, c) → ctx.offset ≤ c.offset
  | .prim k ov => by
      intro _ ctx v c h
      simp only [exec] at h
      split at h
      · exact absurd h (by simp)
      · cases h
        simp only [Ctx.offset_setOffset]
        omega
  | .bool => by
      intro _ ctx v c h
      simp only [exec] at h
      split at h
      · exact absurd h (by simp)
      · cases h
        simp only [Ctx.offset_setOffset]
        omega
  | .string sz enc => by
      intro _ ctx v c h
      simp only [exec] at h
      cases h
      simp only [Ctx.offset_setOffset]
      omega
  | .array p sz => by
      intro hm ctx v c h
      simp only [exec] at h
      split at h
      · exact absurd h (by simp)
      · rename_i vs c2 heq
        cases h
        simp only [monoFree] at hm
        exact iterN_mono _ (exec_mono dv p hm) _ _ _ _ heq
  | .bitfield layout oe f => by
      intro _ ctx v c h
      simp only [exec, bitfieldHandler] at h
      cases h
      simp only [Ctx.offset_setOffset]
      omega
  | .ternary cond t f => by
      intro hm ctx v c h
      simp only [monoFree, Bool.and_eq_true] at hm
      simp only [exec] at h
      split at h
      · exact exec_mono dv t hm.1 _ _ _ h
      · cases f with
        | none => cases h; exact le_refl _
        | some p =>
            simp only [monoFreeOpt] at hm
            exact exec_mono dv p hm.2 _ _ _ h
  | .convert p fn => by
      intro hm ctx v c h
      simp only [monoFree] at hm
      simp only [exec] at h
      split at h
      · exact absurd h (by simp)
      · rename_i v2 c2 heq
        cases h
        exact exec_mono dv p hm _ _ _ heq
  | .seek tgt => by
      intro hm
      simp only [monoFree] at hm
      exact absurd hm (by simp)
  | .skip d => by
      intro hm ctx v c h
      simp only [monoFree, decide_eq_true_eq] at hm
      simp only [exec] at h
      cases h
      simp only [Ctx.offset_setOffset]
      omega
  | .peek tgt p => by
      intro _ ctx v c h
      simp only [exec] at h
      split at h
      · exact absurd h (by simp)
      · rename_i v2 c2 heq
        cases h
        simp
  | .seq ps => by
      intro hm ctx v c h
      simp only [monoFree] at hm
      simp only [exec] at h
      split at h
      · exact absurd h (by simp)
      · rename_i vs c2 heq
        cases h
        exact execSeq_mono dv ps hm _ _ _ heq
  | .obj fs => by
      intro hm ctx v c h
      simp only [monoFree] at hm
      simp only [exec] at h
      split at h
      · exact absurd h (by simp)
      · rename_i final heq
        cases h
        have h1 := execFields_mono dv fs hm _ _ heq
        simp only [Ctx.child, Ctx.offset] at h1
        simpa using h1
  | .lit v0 => by
      intro _ ctx v c h
      simp only [exec] at h
      cases h
      exact le_refl _

theorem execSeq_mono (dv : List Nat) : (ps : PatList) → monoFreeSeq ps = true →
    ∀ ctx vs c, execSeq dv ps ctx = Option.some (vs, c) → ctx.offset ≤ c.offset
  | .nil => by
      intro _ ctx vs c h
      simp only [execSeq] at h
      cases h
      exact le_refl _
  | .cons p rest => by
      intro hm ctx vs c h
      simp only [monoFreeSeq, Bool.and_eq_true] at hm
      simp only [execSeq] at h
      split at h
      · exact absurd h (by simp)
      · rename_i v c1 heq
        split at h
        · exact absurd h (by simp)
        · rename_i vs2 c2 heq2
          cases h
          exact (exec_mono dv p hm.1 _ _ _ heq).trans (execSeq_mono dv rest hm.2 _ _ _ heq2)

theorem execFields_mono (dv : List Nat) : (fs : Fields) → monoFreeFields fs = true →
    ∀ ctx c, execFields dv fs ctx = Option.some c → ctx.offset ≤ c.offset
  | .nil => by
      intro _ ctx c h
      simp only [execFields] at h
      cases h
      exact le_refl _
  | .cons k q rest => by
      intro hm ctx c h
      simp only [monoFreeFields, Bool.and_eq_true] at hm
      simp only [execFields] at h
      split at h
      · exact absurd h (by simp)
      · rename_i v c1 heq
        have h1 := exec_mono dv q hm.1 _ _ _ heq
        have h2 := execFields_mono dv rest hm.2 _ _ h
        simp only [applyField_offset] at h2
        exact h1.trans h2

end

theorem execFieldsSpec_data_grows (dv : List Nat) : (fs : Fields) → ∀ ctx c,
    execFieldsSpec dv fs ctx = Option.some c → ∃ t, c.data = ctx.data ++ t
  | .nil => by
      intro ctx c h
      simp only [execFieldsSpec] at h
      cases h
      exact ⟨[], by simp⟩
  | .cons k q rest => by
      intro ctx c h
      simp only [execFieldsSpec] at h
      split at h
      · exact absurd h (by simp)
      · rename_i v c1 heq
        obtain ⟨t, ht⟩ := execFieldsSpec_data_grows dv rest _ _ h
        have hd : c1.data = ctx.data := (exec_frame dv q _ _ _ heq).2.1
        refine ⟨contribution k v ++ t, ?_⟩
        simp only [ht, Ctx.data_setData, hd, List.append_assoc]

theorem jsAssign_append (d : List (String × Value)) (k : String) (v : Value)
    (h : k ∉ d.map Prod.fst) : jsAssign d k v = d ++ [(k, v)] := by
  simp [jsAssign, h]

theorem jsSpreadMerge_append :
    ∀ (es d : List (String × Value)),
      (d.map Prod.fst ++ es.map Prod.fst).Nodup → jsSpreadMerge d es = d ++ es
  | [], d => by
      intro _
      simp [jsSpreadMerge]
  | (k, v) :: es, d => by
      intro hnd
      have hk : k ∉ d.map Prod.fst := by
        intro hmem
        have := List.disjoint_of_nodup_append hnd
        exact this hmem (by simp)
      have step : jsSpreadMerge d ((k, v) :: es) = jsSpreadMerge (d ++ [(k, v)]) es := by
        simp [jsSpreadMerge, jsAssign_append d k v hk]
      rw [step, jsSpreadMerge_append es (d ++ [(k, v)])]
      · simp
      · simpa using hnd

/-- Under globally distinct result keys, the source's field loop computes
exactly the appended, declaration-ordered result of `execFieldsSpec`. -/
theorem execFields_eq_spec (dv : List Nat) : (fs : Fields) → ∀ ctx c,
    execFieldsSpec dv fs ctx = Option.some c → (c.data.map Prod.fst).Nodup →
    execFields dv fs ctx = Option.some c
  | .nil => by
      intro ctx c h _
      simpa only [execFieldsSpec, execFields] using h
  | .cons k q rest => by
      intro ctx c h hnd
      simp only [execFieldsSpec] at h
      split at h
      · exact absurd h (by simp)
      · rename_i v c1 heq
        obtain ⟨t, ht⟩ := execFieldsSpec_data_grows dv rest _ _ h
        simp only [Ctx.data_setData] at ht
        have hpre : ((c1.data ++ contribution k v).map Prod.fst).Nodup := by
          rw [ht] at hnd
          simp only [List.map_append] at hnd ⊢
          exact List.Nodup.of_append_left (by simpa [List.append_assoc] using hnd)
        have happ : applyField k v c1 = c1.setData (c1.data ++ contribution k v) := by
          by_cases hs : keyIsSpread k = true
          · have hcon : contribution k v = spreadEntries v := by simp [contribution, hs]
            rw [hcon] at hpre ⊢
            simp only [applyField, hs, if_pos]
            rw [jsSpreadMerge_append _ _ (by simpa using hpre)]
          · by_cases ho : keyIsOmit k = true
            · have hcon : contribution k v = [] := by simp [contribution, hs, ho]
              simp [applyField, hs, ho, hcon]
            · have hcon : contribution k v = [(k, v)] := by simp [contribution, hs, ho]
              rw [hcon] at hpre ⊢
              have hk : k ∉ c1.data.map Prod.fst := by
                intro hmem
                have hd := List.disjoint_of_nodup_append (by simpa using hpre)
                exact hd hmem (by simp)
              simp [applyField, hs, ho, jsAssign_append _ _ _ hk]
        simp only [execFields, heq, happ]
        exact execFields_eq_spec dv rest _ _ h hnd

/-! ### Marker keys and small facts -/

theorem keyIsSpread_spreadKey (r : String) : keyIsSpread (spreadKey r) = true := by
  obtain ⟨data⟩ := r
  simp [keyIsSpread, spreadKey, String.toList, List.isPrefixOf]

theorem keyIsOmit_omitKey (r : String) : keyIsOmit (omitKey r) = true := by
  obtain ⟨data⟩ := r
  simp [keyIsOmit, omitKey, String.toList, List.isPrefixOf]

theorem keyIsSpread_omitKey (r : String) : keyIsSpread (omitKey r) = false := by
  obtain ⟨data⟩ := r
  simp [keyIsSpread, omitKey, String.toList, List.isPrefixOf]

theorem iterN_length (step : Ctx → Option (Value × Ctx)) :
    ∀ n ctx vs c, iterN step n ctx = Option.some (vs, c) → vs.length = n := by
  intro n
  induction n with
  | zero =>
      intro ctx vs c h
      simp only [iterN] at h
      cases h
      rfl
  | succ m ih =>
      intro ctx vs c h
      simp only [iterN] at h
      split at h
      · exact absurd h (by simp)
      · rename_i v c1 heq
        split at h
        · exact absurd h (by simp)
        · rename_i vs2 c2 heq2
          cases h
          simp [ih _ _ _ heq2]

/-! ## Claim theorems -/

/-- Claim C1: the bitfield layout `a:3 unsigned, b:3 unsigned, 4 omitted
padding bits, c:5 signed, d:1 boolean`, decoded from the two bytes
`0b01010101 0b11001100` with big-endian byte order and the default MSb
numbering, yields exactly the mapping `a=2, b=5, c=6, d=false` — the
padding entry (its key carries the `//` omit head) absent — and the
context offset advances from `0` to `2`. -/
theorem bitfield_worked_example :
    exec [0b01010101, 0b11001100]
      (.bitfield [("a", ⟨.u, 3⟩), ("b", ⟨.u, 3⟩), ("//padding", ⟨.u, 4⟩),
        ("c", ⟨.i, 5⟩), ("d", ⟨.bool, 1⟩)] Option.none Option.none)
      (rootCtx .big)
    = Option.some
        (.vObj [("a", .vNat 2), ("b", .vNat 5), ("c", .vInt 6), ("d", .vBool false)],
        (rootCtx .big).setOffset 2) := rfl

/-- Claim C2: every fixed-width primitive decoder at offset `o` reads the
`primWidth`-byte span at `o`, interprets it little-endian when the
per-leaf `littleEndian` override says so (`ov.getD` resolves a supplied
override, little-endian for `some true`, and falls back to the context's
global endianness for `none`), returns that value, and sets the offset to
`o + primWidth`.  In particular bytes `[1, 2]` decoded as an unsigned
16-bit integer yield `258` big-endian and `513` little-endian (by either
a `some true` override or a little global endianness). -/
theorem primitive_decoder_semantics :
    (∀ (k : PrimKind) (ov : Option Bool) (dv : List Nat) (ctx : Ctx),
        0 ≤ ctx.offset → ctx.offset.toNat + primWidth k ≤ dv.length →
        exec dv (.prim k ov) ctx
          = Option.some (primValue k (ov.getD (ctx.endian == Endian.little))
              ((dv.drop ctx.offset.toNat).take (primWidth k)),
              ctx.setOffset (ctx.offset + primWidth k)))
    ∧ binpatExec (.prim .u16 Option.none) .big [1, 2] = Option.some (.vNat 258)
    ∧ binpatExec (.prim .u16 (Option.some true)) .big [1, 2] = Option.some (.vNat 513)
    ∧ binpatExec (.prim .u16 Option.none) .little [1, 2] = Option.some (.vNat 513) := by
  refine ⟨?_, rfl, rfl, rfl⟩
  intro k ov dv ctx h1 h2
  simp only [exec, readBytes, if_pos (And.intro h1 h2)]

theorem primitive_decoder_semantics_witness :
    exec [1, 2] (.prim .u16 Option.none) (rootCtx .big)
      = Option.some (.vNat 258, (rootCtx .big).setOffset 2) := by
  have h := primitive_decoder_semantics.1 .u16 Option.none [1, 2] (rootCtx .big)
    (by decide) (by decide)
  exact h

/-- Claim C3: a Structure's fields are executed in declaration order
(`execFieldsSpec` runs them in exactly that order) and, whenever the keys
of the produced mapping are pairwise distinct, the source's field loop
returns precisely the declaration-ordered mapping built from the
per-field `contribution`s: omit-marked (`//`) keys contribute nothing —
though their sub-pattern was executed, advancing the offset, which the
shared threaded context of both runs records — and each spread-marked
(`...`) entry stands replaced, in place, by its decoded sub-mapping's
entries in their own order. -/
theorem structure_declaration_order :
    ∀ (dv : List Nat) (fs : Fields) (ctx final : Ctx),
      execFieldsSpec dv fs ctx.child = Option.some final →
      (final.data.map Prod.fst).Nodup →
      exec dv (.obj fs) ctx
        = Option.some (.vObj final.data, ctx.setOffset final.offset) := by
  intro dv fs ctx final h hnd
  have heq := execFields_eq_spec dv fs _ _ h hnd
  simp only [exec, heq]

theorem structure_declaration_order_witness :
    exec [1, 2, 3, 4, 5] (.obj mixedFields) (rootCtx .big)
      = Option.some
          (.vObj [("a", .vNat 1), ("b", .vNat 3), ("c", .vNat 4), ("d", .vNat 5)],
          (rootCtx .big).setOffset 5) := by
  have h := structure_declaration_order [1, 2, 3, 4, 5] mixedFields (rootCtx .big)
    (Ctx.mk .big 5 [("a", .vNat 1), ("b", .vNat 3), ("c", .vNat 4), ("d", .vNat 5)]
      (Option.some (rootCtx .big)))
    (by rfl) (by decide)
  exact h

/-- Claim C4: after a Structure pattern completes, the calling context's
offset equals the final offset of the Structure's own child context
(`ctx.child` threaded through `execFields`), and the calling context's
endianness, data mapping and parent link are unchanged. -/
theorem structure_offset_bubbles :
    ∀ (dv : List Nat) (fs : Fields) (ctx : Ctx) (v : Value) (c : Ctx),
      exec dv (.obj fs) ctx = Option.some (v, c) →
      ∃ final, execFields dv fs ctx.child = Option.some final
        ∧ v = .vObj final.data
        ∧ c.offset = final.offset
        ∧ c.endian = ctx.endian ∧ c.data = ctx.data ∧ c.parent = ctx.parent := by
  intro dv fs ctx v c h
  simp only [exec] at h
  split at h
  · exact absurd h (by simp)
  · rename_i final heq
    cases h
    exact ⟨final, heq, rfl, by simp, by simp, by simp, by simp⟩

theorem structure_offset_bubbles_witness :
    ∃ final,
      execFields [9] (.cons "a" (.prim .u8 Option.none) .nil) (rootCtx .big).child
        = Option.some final
      ∧ Value.vObj [("a", Value.vNat 9)] = .vObj final.data
      ∧ ((rootCtx .big).setOffset 1).offset = final.offset
      ∧ ((rootCtx .big).setOffset 1).endian = (rootCtx .big).endian
      ∧ ((rootCtx .big).setOffset 1).data = (rootCtx .big).data
      ∧ ((rootCtx .big).setOffset 1).parent = (rootCtx .big).parent :=
  structure_offset_bubbles [9] (.cons "a" (.prim .u8 Option.none) .nil)
    (rootCtx .big) (.vObj [("a", .vNat 9)]) ((rootCtx .big).setOffset 1) (by rfl)

/-- Claim C5: `peek(target, pattern)` returns exactly the value obtained
by decoding the pattern at the target offset, and the caller's context
comes back equal to what it was before the call — for every inner
pattern, a Structure included: the Structure's write-back of its final
offset lands in the same context and is then overwritten by the restore
of the saved offset. -/
theorem peek_preserves_context :
    ∀ (dv : List Nat) (tgt : OffArg) (p : Pattern) (ctx : Ctx),
      exec dv (.peek tgt p) ctx
        = (exec dv p (ctx.setOffset (evalOff tgt ctx))).map fun r => (r.1, ctx) :=
  fun dv tgt p ctx => exec_peek_eq dv tgt p ctx

/-- Claim C6: `array(pattern, size)` evaluates its size exactly once, at
execution time, against the current context (inside a Structure that is
the Structure's child context, where earlier sibling fields are already
in `data`), then executes the element pattern exactly that many times
sequentially on the same threaded context; and the worked scenario
`{ count: u8(), items: array(u8(), (ctx) => ctx.data.count) }` over bytes
`[3, 10, 20, 30, 99]` yields `count = 3, items = [10, 20, 30]`. -/
theorem array_dynamic_size :
    (∀ (dv : List Nat) (p : Pattern) (sz : SizeArg) (ctx : Ctx),
        exec dv (.array p sz) ctx
          = (iterN (exec dv p) (evalSize sz ctx) ctx).map fun r => (Value.vArr r.1, r.2))
    ∧ (∀ (step : Ctx → Option (Value × Ctx)) (ctx : Ctx),
        iterN step 0 ctx = Option.some ([], ctx))
    ∧ (∀ (step : Ctx → Option (Value × Ctx)) (n : Nat) (ctx : Ctx),
        iterN step (n + 1) ctx
          = match step ctx with
            | Option.none => Option.none
            | Option.some (v, c) => (iterN step n c).map fun r => (v :: r.1, r.2))
    ∧ (∀ (step : Ctx → Option (Value × Ctx)) (n : Nat) (ctx : Ctx)
        (vs : List Value) (c : Ctx),
        iterN step n ctx = Option.some (vs, c) → vs.length = n)
    ∧ binpatExec countItemsPattern .big [3, 10, 20, 30, 99]
        = Option.some (.vObj [("count", .vNat 3),
            ("items", .vArr [.vNat 10, .vNat 20, .vNat 30])]) := by
  refine ⟨?_, fun step ctx => rfl, ?_, iterN_length, rfl⟩
  · intro dv p sz ctx
    simp only [exec]
    cases iterN (exec dv p) (evalSize sz ctx) ctx with
    | none => rfl
    | some r => cases r; rfl
  · intro step n ctx
    simp only [iterN]
    cases step ctx with
    | none => rfl
    | some r =>
        obtain ⟨v, c⟩ := r
        cases h : iterN step n c with
        | none => simp [h]
        | some r2 =>
            obtain ⟨vs, c2⟩ := r2
            simp [h]

theorem array_dynamic_size_witness :
    iterN (exec [0, 7] (.prim .u8 Option.none)) 2 (rootCtx .big)
        = Option.some ([Value.vNat 0, Value.vNat 7], (rootCtx .big).setOffset 2)
    ∧ [Value.vNat 0, Value.vNat 7].length = 2 :=
  ⟨rfl, array_dynamic_size.2.2.2.1 (exec [0, 7] (.prim .u8 Option.none)) 2
    (rootCtx .big) [Value.vNat 0, Value.vNat 7] ((rootCtx .big).setOffset 2) rfl⟩

/-- Claim C7 counterexample: offsets do not only increase monotonically
outside `peek`: in the successful decode of `backSeekPattern` over bytes
`[7, 9]` — whose result re-reads byte `0` into field `b` — the `seek`
step maps the context from offset `1` to offset `0`, and `1 ≤ 0` is
false.  (`seek` sets the offset to an arbitrary target; `skip`, whose
delta may be negative in the source, likewise moves it freely.) -/
theorem offset_monotonic_counterexample :
    binpatExec backSeekPattern .big [7, 9]
        = Option.some (.vObj [("a", .vNat 7), ("b", .vNat 7)])
    ∧ exec [7, 9] (.seek (.const 0))
        (Ctx.mk .big 1 [("a", .vNat 7)] (Option.some (rootCtx .big)))
        = Option.some (.vUndef,
            Ctx.mk .big 0 [("a", .vNat 7)] (Option.some (rootCtx .big)))
    ∧ ¬ ((1 : Int) ≤ 0) :=
  ⟨rfl, rfl, by decide⟩

/-- Claim C7 as amended: within a single decode invocation of a pattern
that contains no `seek` and no backwards `skip` outside `peek` bodies
(`monoFree`), every activation's final offset is at least its initial
offset; and `peek` itself is save-jump-restore — its activation ends with
the offset it started with, whatever the inner pattern did. -/
theorem offset_monotonic_amended :
    (∀ (dv : List Nat) (p : Pattern) (ctx : Ctx) (v : Value) (c : Ctx),
        monoFree p = true → exec dv p ctx = Option.some (v, c) →
        ctx.offset ≤ c.offset)
    ∧ (∀ (dv : List Nat) (tgt : OffArg) (p : Pattern) (ctx : Ctx) (v : Value) (c : Ctx),
        exec dv (.peek tgt p) ctx = Option.some (v, c) → c.offset = ctx.offset) := by
  constructor
  · intro dv p ctx v c hm h
    exact exec_mono dv p hm ctx v c h
  · intro dv tgt p ctx v c h
    rw [exec_peek_eq] at h
    obtain ⟨r, hr, hmap⟩ := Option.map_eq_some'.mp h
    cases hmap
    rfl

theorem offset_monotonic_amended_witness :
    monoFree (Pattern.prim .u8 Option.none) = true
    ∧ (rootCtx Endian.big).offset ≤ ((rootCtx Endian.big).setOffset 1).offset :=
  ⟨rfl, offset_monotonic_amended.1 [5] (.prim .u8 Option.none) (rootCtx .big)
    (.vNat 5) ((rootCtx .big).setOffset 1) rfl rfl⟩

/-- Claim C8 counterexample: a spread-marked field whose sub-pattern
decodes to a non-mapping (here the number `7` from `u8()`) raises no
error: the decode completes (`isSome`) and silently drops the value,
returning the empty mapping — JavaScript object spread of a number
contributes no entries. -/
theorem spread_nonmapping_counterexample :
    exec [7] (.obj (.cons "...s" (.prim .u8 Option.none) .nil)) (rootCtx .big)
        = Option.some (.vObj [], (rootCtx .big).setOffset 1)
    ∧ (exec [7] (.obj (.cons "...s" (.prim .u8 Option.none) .nil))
        (rootCtx .big)).isSome = true :=
  ⟨rfl, rfl⟩

/-- Claim C8 as amended: a spread-marked field whose sub-result is not a
mapping is handled by JavaScript spread semantics instead of an error:
every primitive decoded value (number, signed number, float, boolean,
`NaN`, `undefined`) contributes no entries, so the field decodes — still
advancing the offset, with the enclosing data left exactly as it was —
and the value is silently dropped; no error is reported. -/
theorem spread_nonmapping_amended :
    (∀ n, spreadEntries (.vNat n) = [])
    ∧ (∀ i, spreadEntries (.vInt i) = [])
    ∧ (∀ w bits, spreadEntries (.vFloat w bits) = [])
    ∧ (∀ b, spreadEntries (.vBool b) = [])
    ∧ spreadEntries .vNaN = []
    ∧ spreadEntries .vUndef = []
    ∧ (∀ (dv : List Nat) (k : String) (q : Pattern) (ctx : Ctx) (v : Value) (c : Ctx),
        keyIsSpread k = true →
        exec dv q ctx = Option.some (v, c) →
        spreadEntries v = [] →
        execFields dv (.cons k q .nil) ctx = Option.some c ∧ c.data = ctx.data) := by
  refine ⟨fun n => rfl, fun i => rfl, fun w bits => rfl, fun b => rfl, rfl, rfl, ?_⟩
  intro dv k q ctx v c hk hq hv
  refine ⟨?_, (exec_frame dv q ctx v c hq).2.1⟩
  simp only [execFields, hq, applyField, hk, if_pos, hv, jsSpreadMerge, List.foldl_nil,
    Ctx.setData_data_self]

theorem spread_nonmapping_amended_witness :
    execFields [7] (.cons "...s" (.prim .u8 Option.none) .nil) (rootCtx .big)
        = Option.some ((rootCtx .big).setOffset 1)
    ∧ ((rootCtx Endian.big).setOffset 1).data = (rootCtx Endian.big).data :=
  spread_nonmapping_amended.2.2.2.2.2.2 [7] "...s" (.prim .u8 Option.none)
    (rootCtx .big) (.vNat 7) ((rootCtx .big).setOffset 1) rfl rfl rfl

/-- Claim C9 counterexample: a `string` read whose byte span extends past
the buffer end does not fail: `string(6)` over the three bytes
`[98, 105, 110]` succeeds, returns the decode of only the three available
bytes (the clamping `buffer.slice`), and still advances the offset by the
full requested six bytes. -/
theorem string_overrun_counterexample :
    exec [98, 105, 110] (.string (.const 6) "utf-8") (rootCtx .big)
        = Option.some (.vStr [98, 105, 110] "utf-8", (rootCtx .big).setOffset 6)
    ∧ ([98, 105, 110] : List Nat).length < 0 + 6 :=
  ⟨rfl, by decide⟩

/-- Claim C9 as amended: only the fixed-width primitive reads (the
`DataView` getters, `bool` included) fail fast when their byte span is
not inside the buffer; `string` and `bitfield` never fail — both obtain
their span with the clamping `buffer.slice` and advance the offset by the
full requested length regardless of how many bytes were available. -/
theorem overrun_behaviour_amended :
    (∀ (k : PrimKind) (ov : Option Bool) (dv : List Nat) (ctx : Ctx),
        ¬ (0 ≤ ctx.offset ∧ ctx.offset.toNat + primWidth k ≤ dv.length) →
        exec dv (.prim k ov) ctx = Option.none)
    ∧ (∀ (dv : List Nat) (ctx : Ctx),
        ¬ (0 ≤ ctx.offset ∧ ctx.offset.toNat + 1 ≤ dv.length) →
        exec dv .bool ctx = Option.none)
    ∧ (∀ (sz : SizeArg) (enc : String) (dv : List Nat) (ctx : Ctx),
        exec dv (.string sz enc) ctx
          = Option.some (.vStr (jsSlice dv ctx.offset (ctx.offset + evalSize sz ctx)) enc,
              ctx.setOffset (ctx.offset + evalSize sz ctx)))
    ∧ (∀ (layout : List (String × BitDef)) (oe : Option Endian) (f1 : Option First)
        (dv : List Nat) (ctx : Ctx),
        exec dv (.bitfield layout oe f1) ctx
          = Option.some (bitfieldHandler layout oe f1 dv ctx)) := by
  refine ⟨?_, ?_, fun sz enc dv ctx => rfl, fun layout oe f1 dv ctx => rfl⟩
  · intro k ov dv ctx h
    simp only [exec, readBytes, if_neg h]
  · intro dv ctx h
    simp only [exec, readBytes, if_neg h]

theorem overrun_behaviour_amended_witness :
    exec [1] (.prim .u16 Option.none) (rootCtx .big) = Option.none :=
  overrun_behaviour_amended.1 .u16 Option.none [1] (rootCtx .big) (by decide)

/-- Claim C10: the interpreter classifies Structure entries purely by the
head characters of the key string — an entry whose key starts with `...`
has its decoded result spread-merged into the enclosing data, one whose
key starts with `//` is decoded (its context effect kept) but dropped,
and every other entry is assigned under its key; `omit()` and `spread()`
merely produce keys `// + r` and `... + r` for a random suffix `r`; and a
hand-written key with such a head (no marker function involved) is
treated identically, as the two closing decodes show. -/
theorem structure_keys_classified_by_head :
    (∀ (dv : List Nat) (k : String) (q : Pattern) (rest : Fields) (ctx : Ctx)
        (v : Value) (c : Ctx),
        exec dv q ctx = Option.some (v, c) →
        (keyIsSpread k = true →
          execFields dv (.cons k q rest) ctx
            = execFields dv rest (c.setData (jsSpreadMerge c.data (spreadEntries v))))
        ∧ (keyIsSpread k = false → keyIsOmit k = true →
          execFields dv (.cons k q rest) ctx = execFields dv rest c)
        ∧ (keyIsSpread k = false → keyIsOmit k = false →
          execFields dv (.cons k q rest) ctx
            = execFields dv rest (c.setData (jsAssign c.data k v))))
    ∧ (∀ r, keyIsSpread (spreadKey r) = true)
    ∧ (∀ r, keyIsOmit (omitKey r) = true)
    ∧ binpatExec (.obj (.cons "// reserved" (.prim .u8 Option.none)
        (.cons "b" (.prim .u8 Option.none) .nil))) .big [1, 2]
        = Option.some (.vObj [("b", .vNat 2)])
    ∧ binpatExec (.obj (.cons "...hand" (.obj (.cons "x" (.prim .u8 Option.none) .nil))
        (.cons "y" (.prim .u8 Option.none) .nil))) .big [5, 6]
        = Option.some (.vObj [("x", .vNat 5), ("y", .vNat 6)]) := by
  refine ⟨?_, keyIsSpread_spreadKey, keyIsOmit_omitKey, rfl, rfl⟩
  intro dv k q rest ctx v c hq
  refine ⟨?_, ?_, ?_⟩
  · intro hs
    simp only [execFields, hq, applyField, hs, if_pos]
  · intro hs ho
    simp only [execFields, hq, applyField, hs, ho, Bool.false_eq_true, if_false, if_pos]
  · intro hs ho
    simp only [execFields, hq, applyField, hs, ho, Bool.false_eq_true, if_false]

theorem structure_keys_classified_by_head_witness :
    execFields [4] (.cons "z" (.prim .u8 Option.none) .nil) (rootCtx .big)
      = execFields [4] .nil (((rootCtx .big).setOffset 1).setData
          (jsAssign ((rootCtx .big).setOffset 1).data "z" (.vNat 4))) :=
  ((structure_keys_classified_by_head.1 [4] "z" (.prim .u8 Option.none) .nil
    (rootCtx .big) (.vNat 4) ((rootCtx .big).setOffset 1) rfl).2.2) rfl rfl

end Binpat
